import Mathlib

/-!
Verification of the `substreams` manifest / store-statistics core.

This file gives a shallow embedding, in Lean 4, of the two source files of the
repository:

* `manifest/manifest.go` — module definitions, input parsing
  (`Input.parse`), store-builder validation (`validateStoreBuilder`), the
  recursive module signature (`Module.Signature`), and the conversion of
  module inputs to their protobuf form (`Module.setInputsToProto`);
* `tools` (store-stats command) — snapshot-file selection (`getStore`),
  per-store statistics (`calculateStoreStats`, `stdDev`) and the final
  ordering of the collected statistics (`StoreStatsE`).

Go byte slices are modelled as `List Nat`, Go strings as Lean `String`
(hashed through an explicit UTF-8 encoder), `sort.Slice` as an insertion
sort parametrised by the Go comparator, and fallible code as `Option` /
`Except`.  The module graph (`NewModuleGraph`, `AncestorsOf`) is not among
the given source files; it is modelled from the specification and marked as
such at its definition.
-/

/-! ## Insertion sort, modelling Go's `sort.Slice`

`sort.Slice(xs, less)` reorders `xs` so that `less` never holds from a later
element to an earlier one.  We model it by insertion sort over the Go `less`
comparator; the lemmas below establish the permutation and ordering facts
the source relies on.
-/
/-- Insert `x` into `l`, placing it before the first element `y` with
`lt x y = true`. -/
def insertBy {α : Type} (lt : α → α → Bool) (x : α) : List α → List α
  | [] => [x]
  | y :: ys => if lt x y then x :: y :: ys else y :: insertBy lt x ys

/-- Insertion sort with the (strict) comparator `lt`, the model of Go's
`sort.Slice`. -/
def sortBy {α : Type} (lt : α → α → Bool) : List α → List α
  | [] => []
  | x :: xs => insertBy lt x (sortBy lt xs)

/-! ## Byte-level string order

Go compares strings byte-wise; on UTF-8 this agrees with code-point
lexicographic order, which we implement directly so that it evaluates inside
the kernel. -/
/-- Lexicographic strict order on lists of characters, by code point. -/
def charListLt : List Char → List Char → Bool
  | [], [] => false
  | [], _ :: _ => true
  | _ :: _, [] => false
  | a :: as, b :: bs =>
    if a.toNat < b.toNat then true
    else if b.toNat < a.toNat then false
    else charListLt as bs

/-- Go's `<` on strings. -/
def strLt (a b : String) : Bool := charListLt a.data b.data

/-! ## UTF-8 encoding

Go strings are UTF-8 byte sequences; `bytes.Buffer.WriteString` appends those
bytes.  We encode Lean strings to bytes (as `List Nat`) with the standard
UTF-8 scheme. -/
/-- UTF-8 encoding of a single character. -/
def utf8EncodeChar (c : Char) : List Nat :=
  let n := c.toNat
  if n < 128 then [n]
  else if n < 2048 then [192 + n / 64, 128 + n % 64]
  else if n < 65536 then [224 + n / 4096, 128 + n / 64 % 64, 128 + n % 64]
  else [240 + n / 262144, 128 + n / 4096 % 64, 128 + n / 64 % 64, 128 + n % 64]

/-- The UTF-8 bytes of a string, the model of Go's `[]byte(s)`. -/
def strBytes (s : String) : List Nat := (s.data.map utf8EncodeChar).flatten

/-! ## SHA-1 (`crypto/sha1`)

A byte-level implementation of SHA-1 over `List Nat`, used by
`Module.Signature`.  Words are `Nat` reduced modulo `2 ^ 32` wherever Go's
`uint32` arithmetic would overflow. -/
/-- Rotate the 32-bit word `w` left by `k` bits. -/
def rotl (k w : Nat) : Nat := ((w <<< k) % 4294967296) ||| (w >>> (32 - k))

/-- The SHA-1 round constant for round `t`. -/
def sha1K (t : Nat) : Nat :=
  if t < 20 then 1518500249
  else if t < 40 then 1859775393
  else if t < 60 then 2400959708
  else 3395469782

/-- The SHA-1 round function for round `t`. -/
def sha1F (t b c d : Nat) : Nat :=
  if t < 20 then (b &&& c) ||| ((4294967295 ^^^ b) &&& d)
  else if t < 40 then b ^^^ c ^^^ d
  else if t < 60 then (b &&& c) ||| (b &&& d) ||| (c &&& d)
  else b ^^^ c ^^^ d

/-- Big-endian 32-bit words from a byte list. -/
def bytesToWords : List Nat → List Nat
  | b0 :: b1 :: b2 :: b3 :: rest =>
    (b0 * 16777216 + b1 * 65536 + b2 * 256 + b3) :: bytesToWords rest
  | _ => []

/-- Extend the 16-word message schedule by `k` further words
(`W[t] = ROTL1(W[t-3] xor W[t-8] xor W[t-14] xor W[t-16])`). -/
def extendWords : List Nat → Nat → List Nat
  | ws, 0 => ws
  | ws, k + 1 =>
    let n := ws.length
    extendWords
      (ws ++ [rotl 1 (ws.getD (n - 3) 0 ^^^ ws.getD (n - 8) 0
        ^^^ ws.getD (n - 14) 0 ^^^ ws.getD (n - 16) 0)]) k

/-- The five 32-bit words of the SHA-1 chaining state. -/
structure Sha1H where
  h0 : Nat
  h1 : Nat
  h2 : Nat
  h3 : Nat
  h4 : Nat
deriving DecidableEq

/-- The working variables of one SHA-1 compression. -/
structure Sha1Work where
  a : Nat
  b : Nat
  c : Nat
  d : Nat
  e : Nat
deriving DecidableEq

/-- One SHA-1 round: `TEMP = ROTL5(a) + f(t,b,c,d) + e + K(t) + W(t)`. -/
def sha1Round (w : List Nat) (st : Sha1Work) (t : Nat) : Sha1Work :=
  let temp := (rotl 5 st.a + sha1F t st.b st.c st.d + st.e + sha1K t
    + w.getD t 0) % 4294967296
  ⟨temp, st.a, rotl 30 st.b, st.c, st.d⟩

/-- Compress one 64-byte block into the chaining state. -/
def processBlock (h : Sha1H) (block : List Nat) : Sha1H :=
  let ws := extendWords (bytesToWords block) 64
  let st := (List.range 80).foldl (sha1Round ws) ⟨h.h0, h.h1, h.h2, h.h3, h.h4⟩
  ⟨(h.h0 + st.a) % 4294967296, (h.h1 + st.b) % 4294967296,
   (h.h2 + st.c) % 4294967296, (h.h3 + st.d) % 4294967296,
   (h.h4 + st.e) % 4294967296⟩

/-- Split a byte list into 64-byte blocks. -/
def chunks64 (l : List Nat) : List (List Nat) :=
  if l = [] then []
  else l.take 64 :: chunks64 (l.drop 64)
termination_by l.length
decreasing_by
  rename_i h
  have : l.length ≠ 0 := fun hz => h (List.eq_nil_of_length_eq_zero hz)
  simp [List.length_drop]
  omega

/-- Big-endian 8-byte encoding of the 64-bit message bit length. -/
def lenBytes (n : Nat) : List Nat :=
  [n / 72057594037927936 % 256, n / 281474976710656 % 256,
   n / 1099511627776 % 256, n / 4294967296 % 256,
   n / 16777216 % 256, n / 65536 % 256, n / 256 % 256, n % 256]

/-- SHA-1 padding: a `0x80` byte, zeros to 56 mod 64, then the bit length. -/
def sha1Pad (msg : List Nat) : List Nat :=
  msg ++ [128] ++ List.replicate ((119 - msg.length % 64) % 64) 0
    ++ lenBytes (msg.length * 8)

/-- Big-endian bytes of one 32-bit word. -/
def wordBytes (w : Nat) : List Nat :=
  [w / 16777216 % 256, w / 65536 % 256, w / 256 % 256, w % 256]

/-- SHA-1 digest (20 bytes) of a byte list; the model of
`sha1.New/Write/Sum`. -/
def sha1 (msg : List Nat) : List Nat :=
  let hf := (chunks64 (sha1Pad msg)).foldl processBlock
    ⟨1732584193, 4023233417, 2562383102, 271733878, 3285377520⟩
  wordBytes hf.h0 ++ wordBytes hf.h1 ++ wordBytes hf.h2 ++ wordBytes hf.h3
    ++ wordBytes hf.h4

namespace manifest

/-! ## The manifest data model (`manifest/manifest.go`) -/
/-- `manifest.Code`: a module's code reference.  `Content` holds the raw code
bytes. -/
structure Code where
  File : String
  Native : String
  Content : List Nat
  Entrypoint : String
deriving DecidableEq

/-- `manifest.StreamOutput` (`Type'` stands for the Go field `Type`, a
reserved word in Lean). -/
structure StreamOutput where
  Type' : String
deriving DecidableEq

/-- `manifest.Input`: one input declaration of a module. -/
structure Input where
  Source : String
  Store : String
  Map : String
  Mode : String
  Name : String
deriving DecidableEq

/-- `manifest.Module`: one pipeline stage. -/
structure Module where
  Name : String
  Kind : String
  UpdatePolicy : String
  ValueType : String
  Code : Code
  Inputs : List Input
  Output : StreamOutput
deriving DecidableEq

/-- `Input.parse`: exactly one of `map`, `store`, `source` must be set; the
canonical `Name` is derived; a store input's `mode` defaults to `get` and
must be `get` or `deltas`.  Returns the updated input (Go mutates it in
place). -/
def Input.parse (i : Input) : Except String Input :=
  if i.Map ≠ "" ∧ i.Store = "" ∧ i.Source = "" then
    .ok { i with Name := "map:" ++ i.Map }
  else if i.Store ≠ "" ∧ i.Map = "" ∧ i.Source = "" then
    let i1 : Input := { i with Name := "store:" ++ i.Store }
    let i2 : Input := if i1.Mode = "" then { i1 with Mode := "get" } else i1
    if i2.Mode ≠ "get" ∧ i2.Mode ≠ "deltas" then
      .error ("input " ++ i2.Name ++ ": mode parameter must be one of: get, deltas")
    else .ok i2
  else if i.Source ≠ "" ∧ i.Map = "" ∧ i.Store = "" then
    .ok { i with Name := "source:" ++ i.Source }
  else .error "one, and only one of map, store or source must be specified"

/-- The outcome of `validateStoreBuilder`: success (`none`) or one of its
three distinct errors. -/
inductive StoreValidationError
  | missingUpdatePolicy
  | missingValueType
  | invalidCombination
deriving DecidableEq

/-- The fixed list of legal `"<policy>:<valueType>"` strings from
`validateStoreBuilder`. -/
def combinations : List String :=
  ["max:bigint", "max:int64", "max:bigfloat", "max:float64",
   "min:bigint", "min:int64", "min:bigfloat", "min:float64",
   "sum:bigint", "sum:int64", "sum:bigfloat", "sum:float64",
   "replace:bytes", "replace:string", "replace:proto",
   "ignore:bytes", "ignore:string", "ignore:proto"]

/-- `validateStoreBuilder`: requires a non-empty update policy and value
type, then checks the pair against `combinations`. -/
def validateStoreBuilder (module : Module) : Option StoreValidationError :=
  if module.UpdatePolicy = "" then some .missingUpdatePolicy
  else if module.ValueType = "" then some .missingValueType
  else if combinations.any
      (fun comb => module.UpdatePolicy ++ ":" ++ module.ValueType == comb) then
    none
  else some .invalidCombination

/-! ### The module graph

`NewModuleGraph` / `AncestorsOf` / `TopologicalSort` live in a file that is
not part of the given sources; the definitions below are modelled from the
specification. -/
/-- Modelled from the spec: the module graph is a DAG over the manifest's
module list, with an edge to a module from each module referenced by one of
its `store`/`map` inputs (`source` inputs are external roots).  The missing
source is `NewModuleGraph`. -/
structure ModuleGraph where
  modules : List Module
deriving DecidableEq

/-- The names of the modules a module's inputs reference (its direct
dependencies): `store` and `map` inputs only. -/
def parentNames (m : Module) : List String :=
  m.Inputs.filterMap fun i =>
    if i.Store ≠ "" then some i.Store
    else if i.Map ≠ "" then some i.Map
    else none

/-- Find a module by name in a module list. -/
def lookupModule (mods : List Module) (n : String) : Option Module :=
  mods.find? fun m => m.Name == n

/-- The direct dependencies of the module named `n`, in the graph's module
declaration order (the spec fixes only that the order is deterministic). -/
def parentsOf (g : ModuleGraph) (n : String) : List Module :=
  match lookupModule g.modules n with
  | some m => g.modules.filter fun p => decide (p.Name ∈ parentNames m)
  | none => []

/-- Transitive dependencies reachable within `fuel` steps. -/
def ancestorsAux (g : ModuleGraph) : Nat → String → List Module
  | 0, _ => []
  | fuel + 1, n =>
    (parentsOf g n).flatMap fun p => p :: ancestorsAux g fuel p.Name

/-- Modelled from the spec: `AncestorsOf` returns every module transitively
required by the module named `n`, in a deterministic order; on the DAGs the
graph constructor admits, dependency chains are no longer than the module
count, so that fuel enumerates the full closure.  The missing source is
`ModuleGraph.AncestorsOf`. -/
def ModuleGraph.AncestorsOf (g : ModuleGraph) (n : String) : List Module :=
  ancestorsAux g g.modules.length n

/-- `depthOk g d n` states that every dependency chain starting at the
module named `n` has at most `d` edges — the acyclicity bound under which
the recursive signature is well defined (on a cyclic graph the Go recursion
would not terminate). -/
def depthOk (g : ModuleGraph) : Nat → String → Bool
  | 0, n => (parentsOf g n).isEmpty
  | d + 1, n => (parentsOf g n).all fun p => depthOk g d p.Name

/-- The comparator of `sort.Slice` in `Module.Signature`:
`m.Inputs[i].Name < m.Inputs[j].Name`. -/
def inputLt (a b : Input) : Bool := strLt a.Name b.Name

/-- The non-recursive part of the signature preimage: kind, code bytes,
entrypoint, then the canonical names of the inputs sorted by name. -/
def sigBase (m : Module) : List Nat :=
  strBytes m.Kind ++ m.Code.Content ++ strBytes m.Code.Entrypoint
    ++ ((sortBy inputLt m.Inputs).map fun i => strBytes i.Name).flatten

/-- `Module.Signature`, fuel-indexed: the Go function recurses through
`AncestorsOf` with no termination guard; `fuel` bounds the recursion depth
and is irrelevant on acyclic graphs (`signatureW_stable`). -/
def signatureW (g : ModuleGraph) : Nat → Module → List Nat
  | 0, _ => []
  | fuel + 1, m =>
    sha1 (sigBase m ++ ((g.AncestorsOf m.Name).map (signatureW g fuel)).flatten)

/-- `Module.Signature`: SHA-1 over kind, code, entrypoint, sorted input
names, and the recursively computed signatures of all ancestors. -/
def Module.Signature (m : Module) (g : ModuleGraph) : List Nat :=
  signatureW g (g.modules.length + 1) m

/-- Lexicographically sorted copy of a list of strings (the spec's "each
Input's canonical name in lexicographic order"). -/
def sortStrings (l : List String) : List String := sortBy strLt l

/-- `pbtransform.InputStore_Mode`: the proto enum; `UNSET` is the zero
value. -/
inductive InputStoreMode
  | UNSET
  | GET
  | DELTAS
deriving DecidableEq

/-- `pbtransform.InputSource`. -/
structure InputSource where
  Type' : String
deriving DecidableEq

/-- `pbtransform.InputMap`. -/
structure InputMap where
  ModuleName : String
deriving DecidableEq

/-- `pbtransform.InputStore`. -/
structure InputStore where
  ModuleName : String
  Mode : InputStoreMode
deriving DecidableEq

/-- `pbtransform.Input`: the one-of over source, map and store inputs. -/
inductive PbInput
  | source (s : InputSource)
  | map (m : InputMap)
  | store (s : InputStore)
deriving DecidableEq

/-- The body of the loop of `Module.setInputsToProto` for one input.  The Go
switch on `input.Mode` matches only the strings `"UNSET"`, `"GET"` and
`"Delta"`; any other mode leaves the enum at its zero value `UNSET`.  The
`InputMap` branch copies `input.Source` (not `input.Map`), and the
`InputStore` branch copies the converted module's own name `m.Name`. -/
def inputToProto (m : Module) (input : Input) : Except String PbInput :=
  if input.Source ≠ "" then .ok (.source ⟨input.Source⟩)
  else if input.Map ≠ "" then .ok (.map ⟨input.Source⟩)
  else if input.Store ≠ "" then
    let mode : InputStoreMode :=
      if input.Mode = "UNSET" then .UNSET
      else if input.Mode = "GET" then .GET
      else if input.Mode = "Delta" then .DELTAS
      else .UNSET
    .ok (.store ⟨m.Name, mode⟩)
  else .error "invalid input"

/-- `Module.setInputsToProto`: converts every input in order, failing on the
first input with none of the three fields set. -/
def Module.setInputsToProto (m : Module) : Except String (List PbInput) :=
  m.Inputs.mapM (inputToProto m)

end manifest

namespace store

/-! ## The store-stats tool (`tools` package) -/
/-- `store.FileInfo`: metadata of one persisted snapshot file, as consumed
by the statistics tool. -/
structure FileInfo where
  Filename : String
  StartBlock : Nat
  EndBlock : Nat
  Partial : Bool
deriving DecidableEq

end store

namespace tools

/-- `block.Range`. -/
structure BlockRange where
  StartBlock : Nat
  ExclusiveEndBlock : Nat
deriving DecidableEq

/-- `tools.FileInfo`: the file metadata embedded in a statistics record. -/
structure FileInfo where
  FileName : String
  FileSize : Nat
  FileBlockRange : BlockRange
deriving DecidableEq

/-- `tools.KeyStats`.  The Go `float64` fields are modelled as exact
rationals. -/
structure KeyStats where
  TotalSize : Nat
  LargestSize : Nat
  AverageSize : ℚ
  StdDevSize : ℚ
  Largest : String
deriving DecidableEq

/-- `tools.ValueStats`. -/
structure ValueStats where
  TotalSize : Nat
  LargestSize : Nat
  AverageSize : ℚ
  StdDevSize : ℚ
  Largest : String
deriving DecidableEq

/-- `tools.StoreStats`: one module's statistics record.  `KeyStats`,
`ValueStats` and `FileInfo` are pointers in Go; `none` models `nil`
(omitted from the JSON output). -/
structure StoreStats where
  Name : String
  ModuleHash : String
  InitialBlock : Nat
  ValueType : String
  UpdatePolicy : String
  KeysCount : Nat
  FileInfo : Option FileInfo
  KeyStats : Option KeyStats
  ValueStats : Option ValueStats
deriving DecidableEq

/-- The outcome of the pure part of `getStore`: the selected snapshot file,
the `EmptyStoreError`, or the index-out-of-range panic of `kvFiles[0]`. -/
inductive SnapshotSelection
  | found (f : store.FileInfo)
  | emptyStore
  | panicked
deriving DecidableEq

/-- The comparator of `sort.Slice` in `getStore`
(`kvFiles[i].EndBlock >= kvFiles[j].EndBlock`, a reverse sort). -/
def fileDescLt (a b : store.FileInfo) : Bool := decide (b.EndBlock ≤ a.EndBlock)

/-- The snapshot-selection logic of `getStore` on the listed files: empty
listing reports `EmptyStoreError`; otherwise files flagged `Partial` are
filtered out, the rest are sorted by descending end block and the first is
taken — Go's `kvFiles[0]`, which panics when every listed file was
partial. -/
def selectSnapshotFile (files : List store.FileInfo) : SnapshotSelection :=
  if files.length = 0 then .emptyStore
  else
    match sortBy fileDescLt (files.filter fun f => !f.Partial) with
    | [] => .panicked
    | latest :: _ => .found latest

/-- The accumulator of the `stateStore.Iter` loop in `calculateStoreStats`:
the mutated fields of `stats` plus the local `keyLens` / `valueLens`
slices. -/
structure IterAcc where
  KeysCount : Nat
  KeyTotalSize : Nat
  KeyLargestSize : Nat
  KeyLargest : String
  ValueTotalSize : Nat
  ValueLargestSize : Nat
  ValueLargest : String
  keyLens : List ℚ
  valueLens : List ℚ

/-- One iteration of the `Iter` callback, for the entry `(key, value)`.
Key sizes are UTF-8 byte lengths (`len(key)` on a Go string). -/
def iterStep (acc : IterAcc) (kv : String × List Nat) : IterAcc :=
  let keyLen := (strBytes kv.1).length
  let valueLen := kv.2.length
  { KeysCount := acc.KeysCount + 1
    KeyTotalSize := acc.KeyTotalSize + keyLen
    KeyLargestSize := if acc.KeyLargestSize < keyLen then keyLen else acc.KeyLargestSize
    KeyLargest := if acc.KeyLargestSize < keyLen then kv.1 else acc.KeyLargest
    ValueTotalSize := acc.ValueTotalSize + valueLen
    ValueLargestSize := if acc.ValueLargestSize < valueLen then valueLen else acc.ValueLargestSize
    ValueLargest := if acc.ValueLargestSize < valueLen then kv.1 else acc.ValueLargest
    keyLens := acc.keyLens ++ [(keyLen : ℚ)]
    valueLens := acc.valueLens ++ [(valueLen : ℚ)] }

/-- `stdDev(xs, mean)` computes `math.Sqrt(sum((x-mean)^2) / len(xs))`.
Floats are modelled as exact rationals, and the final monotone square root
is left implicit (this development only proves when the computation is
reached).  Note that Lean's rational division by zero returns `0` where
Go's `0.0/0.0` is NaN; claim C10 states that this case is unreachable. -/
def stdDev (xs : List ℚ) (mean : ℚ) : ℚ :=
  (xs.map fun x => (x - mean) ^ 2).sum / (xs.length : ℚ)

/-- `calculateStoreStats` over the entries the store iterator yields: resets
the key/value sub-records, accumulates per-entry sizes, then either fills in
means and standard deviations (`KeysCount > 0`) or sets both sub-records
back to `nil`. -/
def calculateStoreStats (entries : List (String × List Nat))
    (stats : StoreStats) : StoreStats :=
  let acc := entries.foldl iterStep ⟨0, 0, 0, "", 0, 0, "", [], []⟩
  let count := stats.KeysCount + acc.KeysCount
  if 0 < count then
    let meanKeyLen : ℚ := (acc.KeyTotalSize : ℚ) / (count : ℚ)
    let meanValueLen : ℚ := (acc.ValueTotalSize : ℚ) / (count : ℚ)
    { stats with
      KeysCount := count
      KeyStats := some ⟨acc.KeyTotalSize, acc.KeyLargestSize, meanKeyLen,
        stdDev acc.keyLens meanKeyLen, acc.KeyLargest⟩
      ValueStats := some ⟨acc.ValueTotalSize, acc.ValueLargestSize, meanValueLen,
        stdDev acc.valueLens meanValueLen, acc.ValueLargest⟩ }
  else
    { stats with KeysCount := count, KeyStats := none, ValueStats := none }

/-- The final ordering step of `StoreStatsE`: `sort.Slice` with
`sortedModulesIndex[stats[i].Name] > sortedModulesIndex[stats[j].Name]`,
where `idx` is the module-name position in the graph's topological sort. -/
def sortStats (idx : String → Nat) (stats : List StoreStats) : List StoreStats :=
  sortBy (fun a b => decide (idx b.Name < idx a.Name)) stats

end tools

/-! ## Example values used by witnesses and counterexamples -/
/-- The spec's example listing: end block 100 still partial. -/
def file100p : store.FileInfo := ⟨"0090-0100.partial", 90, 100, true⟩

/-- The spec's example listing: complete snapshot up to block 90. -/
def file90 : store.FileInfo := ⟨"0000-0090.kv", 0, 90, false⟩

/-- The spec's example listing: complete snapshot up to block 80. -/
def file80 : store.FileInfo := ⟨"0000-0080.kv", 0, 80, false⟩

/-- The listing of the spec's snapshot-selection example. -/
def exampleListing : List store.FileInfo := [file100p, file90, file80]

/-- A statistics record as `initializeStoreStats` produces it: identity
fields only, zero count, no sub-records. -/
def emptyStatsRecord : tools.StoreStats :=
  ⟨"mod", "ab12", 0, "bigint", "max", 0, none, none, none⟩

/-- First example statistics record for the C8 witness. -/
def statsRecA : tools.StoreStats :=
  ⟨"a", "h1", 0, "bigint", "max", 1, none, none, none⟩

/-- Second example statistics record for the C8 witness. -/
def statsRecBB : tools.StoreStats :=
  ⟨"bb", "h2", 0, "int64", "sum", 2, none, none, none⟩

/-- An example store input for the C6 and C9 witnesses. -/
def inputStoreEx : manifest.Input := ⟨"", "s1", "", "", ""⟩

/-- The parse result of `inputStoreEx`, used by the C9 witness. -/
def inputStoreExParsed : manifest.Input := ⟨"", "s1", "", "get", "store:s1"⟩

/-- A concrete module declaring `inputStoreEx`, used by the C9 witness. -/
def moduleEx : manifest.Module :=
  ⟨"a", "map", "", "", ⟨"code.wasm", "", [0, 1], "map"⟩, [inputStoreExParsed],
    ⟨"proto:sf.Out"⟩⟩

/-- The legal (update policy, value type) pairs, as pairs. -/
def legalCombinations : List (String × String) :=
  [("max", "bigint"), ("max", "int64"), ("max", "bigfloat"), ("max", "float64"),
   ("min", "bigint"), ("min", "int64"), ("min", "bigfloat"), ("min", "float64"),
   ("sum", "bigint"), ("sum", "int64"), ("sum", "bigfloat"), ("sum", "float64"),
   ("replace", "bytes"), ("replace", "string"), ("replace", "proto"),
   ("ignore", "bytes"), ("ignore", "string"), ("ignore", "proto")]

def storeModMaxBigint : manifest.Module :=
  ⟨"s", "store", "max", "bigint", ⟨"", "", [], "build_state"⟩, [], ⟨""⟩⟩

def storeModMaxString : manifest.Module :=
  ⟨"s", "store", "max", "string", ⟨"", "", [], "build_state"⟩, [], ⟨""⟩⟩

def storeModEmptyInt64 : manifest.Module :=
  ⟨"s", "store", "", "int64", ⟨"", "", [], "build_state"⟩, [], ⟨""⟩⟩

namespace manifest

/-- Two modules that differ only in the order of their input lists. -/
def InputsPermuted (a b : Module) : Prop :=
  a.Name = b.Name ∧ a.Kind = b.Kind ∧ a.Code = b.Code ∧ a.Output = b.Output
    ∧ a.UpdatePolicy = b.UpdatePolicy ∧ a.ValueType = b.ValueType
    ∧ a.Inputs.Perm b.Inputs

/-- Two graphs over the same manifest whose modules differ only in input
order, pointwise. -/
def GraphPermuted (g₁ g₂ : ModuleGraph) : Prop :=
  List.Forall₂ InputsPermuted g₁.modules g₂.modules

end manifest

/-- A store input of the witness graph, already parsed. -/
def wInputB : manifest.Input := ⟨"", "b", "", "get", "store:b"⟩

/-- A source input of the witness graph, already parsed. -/
def wInputS : manifest.Input := ⟨"src.blocks", "", "", "", "source:src.blocks"⟩

/-- Witness store module `b`. -/
def wModB : manifest.Module :=
  ⟨"b", "store", "max", "bigint", ⟨"", "", [7], "build_state"⟩, [], ⟨""⟩⟩

/-- Witness map module `a`, depending on `b`. -/
def wModA : manifest.Module :=
  ⟨"a", "map", "", "", ⟨"", "", [1, 2], "map"⟩, [wInputB, wInputS], ⟨"proto:x"⟩⟩

/-- Witness graph of `a` and `b`. -/
def wGraph : manifest.ModuleGraph := ⟨[wModA, wModB]⟩

/-- `wModA` with its two inputs swapped. -/
def wModAswap : manifest.Module :=
  ⟨"a", "map", "", "", ⟨"", "", [1, 2], "map"⟩, [wInputS, wInputB], ⟨"proto:x"⟩⟩

/-- `wGraph` with `wModA`'s inputs swapped. -/
def wGraphSwap : manifest.ModuleGraph := ⟨[wModAswap, wModB]⟩

/-- A module with empty code and entrypoint `map`. -/
def mapEmptyCode : manifest.Module :=
  ⟨"a", "map", "", "", ⟨"", "", [], "map"⟩, [], ⟨"proto:x"⟩⟩

/-- A module whose code is the bytes of `"map"` and whose entrypoint is
empty: a different definition with the same signature preimage. -/
def mapInlineCode : manifest.Module :=
  ⟨"a", "map", "", "", ⟨"", "", [109, 97, 112], ""⟩, [], ⟨"proto:x"⟩⟩

/-- The module graph over no modules. -/
def noModulesGraph : manifest.ModuleGraph := ⟨[]⟩

/-! ## Theorems -/

theorem insertBy_perm {α : Type} (lt : α → α → Bool) (x : α) (l : List α) :
    (insertBy lt x l).Perm (x :: l) := by
  induction l with
  | nil => exact List.Perm.refl _
  | cons y ys ih =>
    simp only [insertBy]
    by_cases h : lt x y = true
    · simp [h]
    · simp only [h, if_false]
      exact ((ih.cons y).trans (List.Perm.swap x y ys))

theorem sortBy_perm {α : Type} (lt : α → α → Bool) (l : List α) :
    (sortBy lt l).Perm l := by
  induction l with
  | nil => exact List.Perm.refl _
  | cons x xs ih =>
    exact (insertBy_perm lt x (sortBy lt xs)).trans (ih.cons x)

theorem insertBy_pairwise {α : Type} (lt : α → α → Bool) (R : α → α → Prop)
    (hT : ∀ a b, lt a b = true → R a b)
    (hF : ∀ a b, lt a b = false → R b a)
    (hTrans : ∀ a b c, R a b → R b c → R a c)
    (x : α) (l : List α) (hl : l.Pairwise R) :
    (insertBy lt x l).Pairwise R := by
  induction l with
  | nil => simp [insertBy]
  | cons y ys ih =>
    rcases List.pairwise_cons.mp hl with ⟨hy, hys⟩
    simp only [insertBy]
    by_cases h : lt x y = true
    · simp only [h, if_true]
      refine List.pairwise_cons.mpr ⟨?_, hl⟩
      intro a ha
      rcases List.mem_cons.mp ha with rfl | ha
      · exact hT _ _ h
      · exact hTrans _ _ _ (hT _ _ h) (hy a ha)
    · simp only [h, if_false]
      refine List.pairwise_cons.mpr ⟨?_, ih hys⟩
      intro a ha
      have := (insertBy_perm lt x ys).mem_iff.mp ha
      rcases List.mem_cons.mp this with rfl | ha'
      · exact hF _ _ (by simpa using h)
      · exact hy a ha'

theorem sortBy_pairwise {α : Type} (lt : α → α → Bool) (R : α → α → Prop)
    (hT : ∀ a b, lt a b = true → R a b)
    (hF : ∀ a b, lt a b = false → R b a)
    (hTrans : ∀ a b c, R a b → R b c → R a c)
    (l : List α) : (sortBy lt l).Pairwise R := by
  induction l with
  | nil => simp [sortBy]
  | cons x xs ih => exact insertBy_pairwise lt R hT hF hTrans x (sortBy lt xs) ih

theorem insertBy_map_key {α β : Type} (lt : β → β → Bool) (f : α → β) (x : α)
    (l : List α) :
    (insertBy (fun a b => lt (f a) (f b)) x l).map f
      = insertBy lt (f x) (l.map f) := by
  induction l with
  | nil => simp [insertBy]
  | cons y ys ih =>
    simp only [insertBy, List.map_cons]
    by_cases h : lt (f x) (f y) = true
    · simp [h]
    · simp [h, ih]

theorem sortBy_map_key {α β : Type} (lt : β → β → Bool) (f : α → β)
    (l : List α) :
    (sortBy (fun a b => lt (f a) (f b)) l).map f = sortBy lt (l.map f) := by
  induction l with
  | nil => simp [sortBy]
  | cons y ys ih =>
    simp only [sortBy, List.map_cons, ← ih]
    exact insertBy_map_key lt f y (sortBy (fun a b => lt (f a) (f b)) ys)

/-- Two lists that are permutations of each other and both pairwise ordered
by a relation that is antisymmetric on the elements of the first one are
equal. -/
theorem eq_of_perm_of_pairwise {α : Type} (R : α → α → Prop) :
    ∀ l₁ l₂ : List α, l₁.Perm l₂ → l₁.Pairwise R → l₂.Pairwise R →
      (∀ a ∈ l₁, ∀ b ∈ l₁, R a b → R b a → a = b) → l₁ = l₂ := by
  intro l₁
  induction l₁ with
  | nil => intro l₂ hp _ _ _; simpa using hp.nil_eq
  | cons a t₁ ih =>
    intro l₂ hp h₁ h₂ hanti
    cases l₂ with
    | nil => exact absurd hp.symm (by simp)
    | cons b t₂ =>
      have hab : a = b := by
        by_contra hne
        have ha2 : a ∈ b :: t₂ := hp.mem_iff.mp (List.mem_cons_self a t₁)
        have hb1 : b ∈ a :: t₁ := hp.mem_iff.mpr (List.mem_cons_self b t₂)
        have haT2 : a ∈ t₂ := by
          rcases List.mem_cons.mp ha2 with h | h
          · exact absurd h hne
          · exact h
        have hbT1 : b ∈ t₁ := by
          rcases List.mem_cons.mp hb1 with h | h
          · exact absurd h.symm hne
          · exact h
        have hRba : R b a := (List.pairwise_cons.mp h₂).1 a haT2
        have hRab : R a b := (List.pairwise_cons.mp h₁).1 b hbT1
        exact hne (hanti a (List.mem_cons_self a t₁) b hb1 hRab hRba)
      subst hab
      have htp : t₁.Perm t₂ := hp.cons_inv
      have : t₁ = t₂ := by
        refine ih t₂ htp (List.pairwise_cons.mp h₁).2 (List.pairwise_cons.mp h₂).2 ?_
        intro x hx y hy
        exact hanti x (List.mem_cons_of_mem a hx) y (List.mem_cons_of_mem a hy)
      rw [this]

theorem charListLt_asymm :
    ∀ l₁ l₂, charListLt l₁ l₂ = true → charListLt l₂ l₁ = false := by
  intro l₁
  induction l₁ with
  | nil =>
    intro l₂ h
    cases l₂ with
    | nil => simp [charListLt]
    | cons b bs => simp [charListLt]
  | cons a as ih =>
    intro l₂ h
    cases l₂ with
    | nil => simp [charListLt] at h
    | cons b bs =>
      simp only [charListLt] at h ⊢
      by_cases hab : a.toNat < b.toNat
      · rw [if_neg (Nat.lt_asymm hab), if_pos hab]
      · by_cases hba : b.toNat < a.toNat
        · rw [if_neg hab, if_pos hba] at h
          exact absurd h (by simp)
        · rw [if_neg hab, if_neg hba] at h
          rw [if_neg hba, if_neg hab]
          exact ih bs h

theorem charListLt_antisymm :
    ∀ l₁ l₂, charListLt l₁ l₂ = false → charListLt l₂ l₁ = false → l₁ = l₂ := by
  intro l₁
  induction l₁ with
  | nil =>
    intro l₂ h _
    cases l₂ with
    | nil => rfl
    | cons b bs => simp [charListLt] at h
  | cons a as ih =>
    intro l₂ h h'
    cases l₂ with
    | nil => simp [charListLt] at h'
    | cons b bs =>
      simp only [charListLt] at h h'
      by_cases hab : a.toNat < b.toNat
      · rw [if_pos hab] at h
        exact absurd h (by simp)
      · by_cases hba : b.toNat < a.toNat
        · rw [if_pos hba] at h'
          exact absurd h' (by simp)
        · rw [if_neg hab, if_neg hba] at h
          rw [if_neg hba, if_neg hab] at h'
          have hc : a = b := by
            have : a.toNat = b.toNat :=
              Nat.le_antisymm (Nat.le_of_not_lt hba) (Nat.le_of_not_lt hab)
            exact Char.ext (UInt32.ext (by simpa [Char.toNat] using this))
          rw [hc, ih bs h h']

theorem charListLt_le_trans :
    ∀ l₁ l₂ l₃, charListLt l₁ l₂ = false → charListLt l₂ l₃ = false →
      charListLt l₁ l₃ = false := by
  intro l₁
  induction l₁ with
  | nil =>
    intro l₂ l₃ h h'
    cases l₂ with
    | nil =>
      cases l₃ with
      | nil => simp [charListLt]
      | cons c cs => simp [charListLt] at h'
    | cons b bs => simp [charListLt] at h
  | cons a as ih =>
    intro l₂ l₃ h h'
    cases l₂ with
    | nil =>
      cases l₃ with
      | nil => simp [charListLt]
      | cons c cs => simp [charListLt] at h'
    | cons b bs =>
      cases l₃ with
      | nil => simp [charListLt]
      | cons c cs =>
        simp only [charListLt] at h h' ⊢
        by_cases hab : a.toNat < b.toNat
        · rw [if_pos hab] at h
          exact absurd h (by simp)
        · by_cases hbc : b.toNat < c.toNat
          · rw [if_pos hbc] at h'
            exact absurd h' (by simp)
          · have hba : b.toNat ≤ a.toNat := Nat.le_of_not_lt hab
            have hcb : c.toNat ≤ b.toNat := Nat.le_of_not_lt hbc
            have hac : ¬ a.toNat < c.toNat := Nat.not_lt.mpr (Nat.le_trans hcb hba)
            rw [if_neg hac]
            by_cases hca : c.toNat < a.toNat
            · rw [if_pos hca]
            · rw [if_neg hca]
              have hab' : ¬ b.toNat < a.toNat := by omega
              have hbc' : ¬ c.toNat < b.toNat := by omega
              rw [if_neg hab, if_neg hab'] at h
              rw [if_neg hbc, if_neg hbc'] at h'
              exact ih bs cs h h'

theorem strLt_asymm (a b : String) (h : strLt a b = true) : strLt b a = false :=
  charListLt_asymm a.data b.data h

theorem strLt_antisymm (a b : String) (h : strLt a b = false)
    (h' : strLt b a = false) : a = b :=
  String.ext (charListLt_antisymm a.data b.data h h')

theorem strLt_le_trans (a b c : String) (h : strLt a b = false)
    (h' : strLt b c = false) : strLt a c = false :=
  charListLt_le_trans a.data b.data c.data h h'

theorem sha1_length (msg : List Nat) : (sha1 msg).length = 20 := by
  simp [sha1, wordBytes]

namespace manifest

theorem depthOk_mono (g : ModuleGraph) :
    ∀ d n, depthOk g d n = true → depthOk g (d + 1) n = true := by
  intro d
  induction d with
  | zero =>
    intro n h
    have : parentsOf g n = [] := List.isEmpty_iff.mp (by simpa [depthOk] using h)
    simp [depthOk, this]
  | succ d ih =>
    intro n h
    rw [depthOk] at h ⊢
    simp only [List.all_eq_true] at h ⊢
    intro p hp
    exact ih p.Name (h p hp)

theorem depthOk_le (g : ModuleGraph) {d d' : Nat} (hd : d ≤ d') {n : String}
    (h : depthOk g d n = true) : depthOk g d' n = true := by
  induction d' with
  | zero =>
    have : d = 0 := Nat.le_zero.mp hd
    simpa [this] using h
  | succ k ih =>
    rcases Nat.lt_or_ge d (k + 1) with hlt | hge
    · exact depthOk_mono g k n (ih (Nat.lt_succ_iff.mp hlt))
    · have : d = k + 1 := Nat.le_antisymm hd hge
      simpa [this] using h

theorem ancestorsAux_depth (g : ModuleGraph) :
    ∀ (fuel : Nat) (n : String) (d : Nat) (a : Module),
      depthOk g d n = true → a ∈ ancestorsAux g fuel n →
      ∃ d' < d, depthOk g d' a.Name = true := by
  intro fuel
  induction fuel with
  | zero => intro n d a _ ha; simp [ancestorsAux] at ha
  | succ fuel ih =>
    intro n d a hd ha
    simp only [ancestorsAux, List.mem_flatMap] at ha
    obtain ⟨p, hp, hmem⟩ := ha
    cases d with
    | zero =>
      have : parentsOf g n = [] := List.isEmpty_iff.mp (by simpa [depthOk] using hd)
      rw [this] at hp
      simp at hp
    | succ d =>
      have hpd : depthOk g d p.Name = true := by
        have := (List.all_eq_true.mp (by simpa [depthOk] using hd)) p hp
        simpa using this
      rcases List.mem_cons.mp hmem with rfl | hmem'
      · exact ⟨d, Nat.lt_succ_self d, hpd⟩
      · obtain ⟨d', hd', hok⟩ := ih p.Name d a hpd hmem'
        exact ⟨d', Nat.lt_trans hd' (Nat.lt_succ_self d), hok⟩

/-- On a graph whose dependency chains from `m` are bounded by `d`, the
fuel-indexed signature is independent of any fuel above `d`. -/
theorem signatureW_stable (g : ModuleGraph) :
    ∀ (d : Nat) (m : Module), depthOk g d m.Name = true →
      ∀ f₁ f₂, d < f₁ → d < f₂ → signatureW g f₁ m = signatureW g f₂ m := by
  intro d
  induction d using Nat.strong_induction_on with
  | _ d ih =>
    intro m hd f₁ f₂ h₁ h₂
    obtain ⟨k₁, rfl⟩ : ∃ k, f₁ = k + 1 := ⟨f₁ - 1, by omega⟩
    obtain ⟨k₂, rfl⟩ : ∃ k, f₂ = k + 1 := ⟨f₂ - 1, by omega⟩
    simp only [signatureW]
    have hmap : (g.AncestorsOf m.Name).map (signatureW g k₁)
        = (g.AncestorsOf m.Name).map (signatureW g k₂) := by
      apply List.map_congr_left
      intro a ha
      obtain ⟨d', hd', hok⟩ :=
        ancestorsAux_depth g g.modules.length m.Name d a hd ha
      exact ih d' hd' a hok k₁ k₂ (by omega) (by omega)
    rw [hmap]

theorem sigBase_spec (m : Module) :
    sigBase m = strBytes m.Kind ++ m.Code.Content ++ strBytes m.Code.Entrypoint
      ++ ((sortStrings (m.Inputs.map Input.Name)).map strBytes).flatten := by
  have h1 : ((sortBy inputLt m.Inputs).map fun i => strBytes i.Name)
      = ((sortBy inputLt m.Inputs).map Input.Name).map strBytes := by
    rw [List.map_map]; rfl
  have h2 : (sortBy inputLt m.Inputs).map Input.Name
      = sortBy strLt (m.Inputs.map Input.Name) :=
    sortBy_map_key strLt Input.Name m.Inputs
  simp only [sigBase, h1, h2, sortStrings]

end manifest

namespace tools

theorem fileDescLt_pairwise (l : List store.FileInfo) :
    (sortBy fileDescLt l).Pairwise fun a b => b.EndBlock ≤ a.EndBlock := by
  refine sortBy_pairwise fileDescLt _ ?_ ?_ ?_ l
  · intro a b h
    exact of_decide_eq_true h
  · intro a b h
    exact Nat.le_of_not_le (of_decide_eq_false h)
  · intro a b c h1 h2
    exact Nat.le_trans h2 h1

end tools

/-- C3 (code evaluation at the failing input): a listing whose only file is
flagged partial makes `getStore` evaluate `kvFiles[0]` on an empty slice —
an index-out-of-range panic that aborts the whole collection — instead of
reporting the `EmptyStoreError` identity-only outcome; only a listing with
no files at all takes the `EmptyStoreError` path. -/
theorem C3_allPartial_panics :
    tools.selectSnapshotFile [file100p] = .panicked
    ∧ tools.selectSnapshotFile ([] : List store.FileInfo) = .emptyStore
    ∧ tools.selectSnapshotFile [file100p] ≠ .emptyStore := by
  refine ⟨by decide, by decide, by decide⟩

/-- C4: on any listing holding at least one non-partial file, `getStore`
selects a non-partial file from the listing whose end block is maximal among
the non-partial files; on the spec's example — end blocks 100 (partial),
90 (complete), 80 (complete) — it selects the file ending at 90. -/
theorem C4_selects_latest_complete (files : List store.FileInfo)
    (f₀ : store.FileInfo) (h₀ : f₀ ∈ files) (hnp : f₀.Partial = false) :
    (∃ f, tools.selectSnapshotFile files = .found f ∧ f.Partial = false
      ∧ f ∈ files ∧ ∀ x ∈ files, x.Partial = false → x.EndBlock ≤ f.EndBlock)
    ∧ tools.selectSnapshotFile exampleListing = .found file90 := by
  constructor
  · have hne : files.length ≠ 0 := by
      intro hz
      rw [List.length_eq_zero.mp hz] at h₀
      simp at h₀
    have hkv : f₀ ∈ files.filter fun f => !f.Partial :=
      List.mem_filter.mpr ⟨h₀, by simp [hnp]⟩
    have hperm := sortBy_perm tools.fileDescLt (files.filter fun f => !f.Partial)
    cases hs : sortBy tools.fileDescLt (files.filter fun f => !f.Partial) with
    | nil =>
      rw [hs] at hperm
      exact absurd (hperm.symm.mem_iff.mp hkv) (by simp)
    | cons latest rest =>
      refine ⟨latest, ?_, ?_, ?_, ?_⟩
      · simp only [tools.selectSnapshotFile, if_neg hne, hs]
      · have hmem : latest ∈ files.filter fun f => !f.Partial := by
          refine hperm.mem_iff.mp ?_
          rw [hs]
          exact List.mem_cons_self _ _
        simpa using (List.mem_filter.mp hmem).2
      · have hmem : latest ∈ files.filter fun f => !f.Partial := by
          refine hperm.mem_iff.mp ?_
          rw [hs]
          exact List.mem_cons_self _ _
        exact (List.mem_filter.mp hmem).1
      · intro x hx hxp
        have hxkv : x ∈ files.filter fun f => !f.Partial :=
          List.mem_filter.mpr ⟨hx, by simp [hxp]⟩
        have hxs : x ∈ latest :: rest := by
          rw [← hs]
          exact hperm.symm.mem_iff.mp hxkv
        rcases List.mem_cons.mp hxs with rfl | hxr
        · exact Nat.le_refl _
        · have hpw := tools.fileDescLt_pairwise (files.filter fun f => !f.Partial)
          rw [hs] at hpw
          exact (List.pairwise_cons.mp hpw).1 x hxr
  · decide

/-- Witness for C4 at the spec's concrete listing. -/
theorem C4_witness :
    (file90 ∈ exampleListing ∧ file90.Partial = false)
    ∧ ((∃ f, tools.selectSnapshotFile exampleListing = .found f
        ∧ f.Partial = false ∧ f ∈ exampleListing
        ∧ ∀ x ∈ exampleListing, x.Partial = false → x.EndBlock ≤ f.EndBlock)
      ∧ tools.selectSnapshotFile exampleListing = .found file90) :=
  ⟨⟨by decide, by decide⟩,
    C4_selects_latest_complete exampleListing file90 (by decide) (by decide)⟩

namespace tools

theorem foldl_iterStep_counts (entries : List (String × List Nat)) :
    ∀ acc : IterAcc,
      (entries.foldl iterStep acc).KeysCount = acc.KeysCount + entries.length
      ∧ (entries.foldl iterStep acc).keyLens.length
          = acc.keyLens.length + entries.length
      ∧ (entries.foldl iterStep acc).valueLens.length
          = acc.valueLens.length + entries.length := by
  induction entries with
  | nil => intro acc; simp
  | cons e es ih =>
    intro acc
    obtain ⟨h1, h2, h3⟩ := ih (iterStep acc e)
    refine ⟨?_, ?_, ?_⟩
    · rw [List.foldl_cons, h1]; simp [iterStep]; omega
    · rw [List.foldl_cons, h2]; simp [iterStep]; omega
    · rw [List.foldl_cons, h3]; simp [iterStep]; omega

end tools

/-- C10: when the iterated store holds zero entries (and the incoming
record's count is zero, as `initializeStoreStats` produces it),
`calculateStoreStats` leaves both the key-statistics and value-statistics
sub-records absent (`nil`), and whenever a sub-record is produced the lists
whose lengths divide the standard-deviation radicand are non-empty — the
`stdDev` computation is evaluated only for a positive entry count. -/
theorem C10_empty_store_no_substats (entries : List (String × List Nat))
    (stats : tools.StoreStats) (hz : stats.KeysCount = 0) :
    ((tools.calculateStoreStats entries stats).KeyStats = none ↔ entries = [])
    ∧ ((tools.calculateStoreStats entries stats).ValueStats = none ↔ entries = [])
    ∧ ((tools.calculateStoreStats entries stats).KeyStats.isSome →
        0 < ((entries.foldl tools.iterStep ⟨0, 0, 0, "", 0, 0, "", [], []⟩).keyLens).length)
    ∧ ((tools.calculateStoreStats entries stats).ValueStats.isSome →
        0 < ((entries.foldl tools.iterStep ⟨0, 0, 0, "", 0, 0, "", [], []⟩).valueLens).length) := by
  obtain ⟨hc, hk, hv⟩ :=
    tools.foldl_iterStep_counts entries (⟨0, 0, 0, "", 0, 0, "", [], []⟩ : tools.IterAcc)
  cases entries with
  | nil =>
    simp only [tools.calculateStoreStats]
    rw [hc, hz]
    simp
  | cons e es =>
    simp only [tools.calculateStoreStats]
    have hpos : 0 < stats.KeysCount
        + ((e :: es).foldl tools.iterStep ⟨0, 0, 0, "", 0, 0, "", [], []⟩).KeysCount := by
      rw [hc, hz]
      simp
    rw [if_pos hpos]
    refine ⟨by simp, by simp, ?_, ?_⟩
    · intro _
      rw [hk]
      simp
    · intro _
      rw [hv]
      simp

/-- Witness for C10 at the empty entry list. -/
theorem C10_witness :
    ((tools.calculateStoreStats [] emptyStatsRecord).KeyStats = none
      ↔ ([] : List (String × List Nat)) = [])
    ∧ ((tools.calculateStoreStats [] emptyStatsRecord).ValueStats = none
      ↔ ([] : List (String × List Nat)) = []) :=
  ⟨(C10_empty_store_no_substats [] emptyStatsRecord rfl).1,
   (C10_empty_store_no_substats [] emptyStatsRecord rfl).2.1⟩

namespace tools

theorem sortStats_pairwise (idx : String → Nat) (stats : List StoreStats) :
    (sortStats idx stats).Pairwise fun a b => idx b.Name ≤ idx a.Name := by
  refine sortBy_pairwise _ _ ?_ ?_ ?_ stats
  · intro a b h
    exact Nat.le_of_lt (of_decide_eq_true h)
  · intro a b h
    exact Nat.le_of_not_lt (of_decide_eq_false h)
  · intro a b c h1 h2
    exact Nat.le_trans h2 h1

end tools

/-- C8: the final ordering step of `StoreStatsE` sorts the collected
records by the module's position in the graph's topological order
(descending, the code's comparator being `>` on positions), and — provided
the per-module positions are distinct on the collected records, as they are
when each store module reports once — the sorted output is the same for any
arrival order of the results. -/
theorem C8_output_order_deterministic (idx : String → Nat)
    (s₁ s₂ : List tools.StoreStats) (hperm : s₁.Perm s₂)
    (hinj : ∀ a ∈ s₁, ∀ b ∈ s₁, idx a.Name = idx b.Name → a = b) :
    tools.sortStats idx s₁ = tools.sortStats idx s₂
    ∧ (tools.sortStats idx s₁).Pairwise fun a b => idx b.Name ≤ idx a.Name := by
  refine ⟨?_, tools.sortStats_pairwise idx s₁⟩
  refine eq_of_perm_of_pairwise (fun a b => idx b.Name ≤ idx a.Name) _ _
    (((sortBy_perm _ s₁).trans hperm).trans (sortBy_perm _ s₂).symm)
    (tools.sortStats_pairwise idx s₁) (tools.sortStats_pairwise idx s₂) ?_
  intro a ha b hb h1 h2
  have ha' : a ∈ s₁ := (sortBy_perm _ s₁).mem_iff.mp ha
  have hb' : b ∈ s₁ := (sortBy_perm _ s₁).mem_iff.mp hb
  exact hinj a ha' b hb' (Nat.le_antisymm h2 h1)

/-- Witness for C8: the two arrival orders of two records sort to the same
output. -/
theorem C8_witness :
    [statsRecA, statsRecBB].Perm [statsRecBB, statsRecA]
    ∧ (tools.sortStats String.length [statsRecA, statsRecBB]
        = tools.sortStats String.length [statsRecBB, statsRecA]
      ∧ (tools.sortStats String.length [statsRecA, statsRecBB]).Pairwise
          fun a b => b.Name.length ≤ a.Name.length) :=
  ⟨by decide,
    C8_output_order_deterministic String.length [statsRecA, statsRecBB]
      [statsRecBB, statsRecA] (by decide) (by decide)⟩

/-- C6: `Input.parse` succeeds exactly when one and only one of `source`,
`store`, `map` is non-empty and, for a store input, the mode is empty,
`get` or `deltas`; on success the derived name is `map:<id>`,
`store:<id>` or `source:<id>` and an empty store mode defaults to
`get`. -/
theorem C6_input_parse (i : manifest.Input) :
    ((∃ i', manifest.Input.parse i = .ok i')
      ↔ (((i.Map ≠ "" ∧ i.Store = "" ∧ i.Source = "")
          ∨ (i.Store ≠ "" ∧ i.Map = "" ∧ i.Source = "")
          ∨ (i.Source ≠ "" ∧ i.Map = "" ∧ i.Store = ""))
        ∧ ((i.Store ≠ "" ∧ i.Map = "" ∧ i.Source = "") →
            i.Mode = "" ∨ i.Mode = "get" ∨ i.Mode = "deltas")))
    ∧ ((i.Map ≠ "" ∧ i.Store = "" ∧ i.Source = "") →
        manifest.Input.parse i = .ok { i with Name := "map:" ++ i.Map })
    ∧ ((i.Source ≠ "" ∧ i.Map = "" ∧ i.Store = "") →
        manifest.Input.parse i = .ok { i with Name := "source:" ++ i.Source })
    ∧ ((i.Store ≠ "" ∧ i.Map = "" ∧ i.Source = "") →
        (i.Mode = "" →
          manifest.Input.parse i
            = .ok { i with Name := "store:" ++ i.Store, Mode := "get" })
        ∧ ((i.Mode = "get" ∨ i.Mode = "deltas") →
          manifest.Input.parse i = .ok { i with Name := "store:" ++ i.Store })) := by
  by_cases h1 : i.Map ≠ "" ∧ i.Store = "" ∧ i.Source = ""
  · have hparse : manifest.Input.parse i = .ok { i with Name := "map:" ++ i.Map } := by
      simp only [manifest.Input.parse, if_pos h1]
    refine ⟨⟨fun _ => ⟨Or.inl h1, fun hc => absurd h1.2.1 hc.1⟩, fun _ => ⟨_, hparse⟩⟩,
      fun _ => hparse, fun hc => absurd hc.2.1 h1.1, fun hc => absurd h1.2.1 hc.1⟩
  · by_cases h2 : i.Store ≠ "" ∧ i.Map = "" ∧ i.Source = ""
    · obtain ⟨hst, hmap, hsrc⟩ := h2
      by_cases hm0 : i.Mode = ""
      · have hparse : manifest.Input.parse i
            = .ok { i with Name := "store:" ++ i.Store, Mode := "get" } := by
          simp [manifest.Input.parse, h1, hst, hmap, hsrc, hm0]
        refine ⟨⟨fun _ => ⟨Or.inr (Or.inl ⟨hst, hmap, hsrc⟩), fun _ => Or.inl hm0⟩,
            fun _ => ⟨_, hparse⟩⟩,
          fun hc => absurd hmap hc.1, fun hc => absurd hc.2.2 hst,
          fun _ => ⟨fun _ => hparse, fun hg => ?_⟩⟩
        rcases hg with hg | hg
        · exact absurd (hm0.symm.trans hg) (by decide)
        · exact absurd (hm0.symm.trans hg) (by decide)
      · by_cases hmg : i.Mode = "get"
        · have hparse : manifest.Input.parse i
              = .ok { i with Name := "store:" ++ i.Store } := by
            simp [manifest.Input.parse, h1, hst, hmap, hsrc, hm0, hmg]
          refine ⟨⟨fun _ => ⟨Or.inr (Or.inl ⟨hst, hmap, hsrc⟩),
              fun _ => Or.inr (Or.inl hmg)⟩, fun _ => ⟨_, hparse⟩⟩,
            fun hc => absurd hmap hc.1, fun hc => absurd hc.2.2 hst,
            fun _ => ⟨fun hz => absurd hz hm0, fun _ => hparse⟩⟩
        · by_cases hmd : i.Mode = "deltas"
          · have hparse : manifest.Input.parse i
                = .ok { i with Name := "store:" ++ i.Store } := by
              simp [manifest.Input.parse, h1, hst, hmap, hsrc, hm0, hmg, hmd]
            refine ⟨⟨fun _ => ⟨Or.inr (Or.inl ⟨hst, hmap, hsrc⟩),
                fun _ => Or.inr (Or.inr hmd)⟩, fun _ => ⟨_, hparse⟩⟩,
              fun hc => absurd hmap hc.1, fun hc => absurd hc.2.2 hst,
              fun _ => ⟨fun hz => absurd hz hm0, fun _ => hparse⟩⟩
          · have hparse : ∀ i', manifest.Input.parse i ≠ .ok i' := by
              intro i'
              simp [manifest.Input.parse, h1, hst, hmap, hsrc, hm0, hmg, hmd]
            refine ⟨⟨fun he => ?_, fun hr => ?_⟩,
              fun hc => absurd hmap hc.1, fun hc => absurd hc.2.2 hst,
              fun _ => ⟨fun hz => absurd hz hm0, fun hg => ?_⟩⟩
            · obtain ⟨i', hi'⟩ := he
              exact absurd hi' (hparse i')
            · rcases hr.2 ⟨hst, hmap, hsrc⟩ with hz | hz | hz
              · exact absurd hz hm0
              · exact absurd hz hmg
              · exact absurd hz hmd
            · rcases hg with hg | hg
              · exact absurd hg hmg
              · exact absurd hg hmd
    · by_cases h3 : i.Source ≠ "" ∧ i.Map = "" ∧ i.Store = ""
      · have hparse : manifest.Input.parse i
            = .ok { i with Name := "source:" ++ i.Source } := by
          simp only [manifest.Input.parse, if_neg h1, if_neg h2, if_pos h3]
        refine ⟨⟨fun _ => ⟨Or.inr (Or.inr h3), fun hc => absurd hc.2.2 h3.1⟩,
            fun _ => ⟨_, hparse⟩⟩,
          fun hc => absurd h3.2.1 hc.1, fun _ => hparse,
          fun hc => absurd hc.2.2 h3.1⟩
      · have hparse : ∀ i', manifest.Input.parse i ≠ .ok i' := by
          intro i'
          simp [manifest.Input.parse, h1, h2, h3]
        refine ⟨⟨fun he => ?_, fun hr => ?_⟩,
          fun hc => absurd hc h1, fun hc => absurd hc h3, fun hc => absurd hc h2⟩
        · obtain ⟨i', hi'⟩ := he
          exact absurd hi' (hparse i')
        · rcases hr.1 with hc | hc | hc
          · exact absurd hc h1
          · exact absurd hc h2
          · exact absurd hc h3

/-- Witness for C6 at a concrete store input with empty mode. -/
theorem C6_witness :
    manifest.Input.parse inputStoreEx
      = .ok { inputStoreEx with Name := "store:" ++ inputStoreEx.Store, Mode := "get" } :=
  ((C6_input_parse inputStoreEx).2.2.2 (by decide)).1 rfl

/-- C9: for any successfully parsed input, the proto conversion of a store
input carries `Mode = UNSET` (the switch matches only the strings `UNSET`,
`GET` and `Delta`, never the parsed `get`/`deltas`) and its `ModuleName` is
the converted module's own name, not the referenced store; and a map input's
`InputMap.ModuleName` is copied from the input's `source` field — empty for
a pure map input — not from its `map` field. -/
theorem C9_proto_conversion (m : manifest.Module) (i i' : manifest.Input)
    (hp : manifest.Input.parse i = .ok i') :
    (i'.Store ≠ "" →
      manifest.inputToProto m i'
        = .ok (.store ⟨m.Name, manifest.InputStoreMode.UNSET⟩))
    ∧ (i'.Map ≠ "" →
      i'.Source = "" ∧ manifest.inputToProto m i' = .ok (.map ⟨i'.Source⟩)) := by
  by_cases h1 : i.Map ≠ "" ∧ i.Store = "" ∧ i.Source = ""
  · have hparse : manifest.Input.parse i = .ok { i with Name := "map:" ++ i.Map } := by
      simp only [manifest.Input.parse, if_pos h1]
    rw [hparse] at hp
    simp only [Except.ok.injEq] at hp
    subst hp
    constructor
    · intro hs
      exact absurd h1.2.1 (by simpa using hs)
    · intro _
      refine ⟨by simpa using h1.2.2, ?_⟩
      simp [manifest.inputToProto, h1.2.2, h1.1]
  · by_cases h2 : i.Store ≠ "" ∧ i.Map = "" ∧ i.Source = ""
    · obtain ⟨hst, hmap, hsrc⟩ := h2
      by_cases hm0 : i.Mode = ""
      · have hparse : manifest.Input.parse i
            = .ok { i with Name := "store:" ++ i.Store, Mode := "get" } := by
          simp [manifest.Input.parse, h1, hst, hmap, hsrc, hm0]
        rw [hparse] at hp
        simp only [Except.ok.injEq] at hp
        subst hp
        constructor
        · intro _
          simp [manifest.inputToProto, hsrc, hmap, hst]
        · intro hmapne
          exact absurd hmap (by simpa using hmapne)
      · by_cases hmg : i.Mode = "get"
        · have hparse : manifest.Input.parse i
              = .ok { i with Name := "store:" ++ i.Store } := by
            simp [manifest.Input.parse, h1, hst, hmap, hsrc, hm0, hmg]
          rw [hparse] at hp
          simp only [Except.ok.injEq] at hp
          subst hp
          constructor
          · intro _
            simp [manifest.inputToProto, hsrc, hmap, hst, hmg]
          · intro hmapne
            exact absurd hmap (by simpa using hmapne)
        · by_cases hmd : i.Mode = "deltas"
          · have hparse : manifest.Input.parse i
                = .ok { i with Name := "store:" ++ i.Store } := by
              simp [manifest.Input.parse, h1, hst, hmap, hsrc, hm0, hmg, hmd]
            rw [hparse] at hp
            simp only [Except.ok.injEq] at hp
            subst hp
            constructor
            · intro _
              simp [manifest.inputToProto, hsrc, hmap, hst, hmd]
            · intro hmapne
              exact absurd hmap (by simpa using hmapne)
          · have hparse : ∀ j, manifest.Input.parse i ≠ .ok j := by
              intro j
              simp [manifest.Input.parse, h1, hst, hmap, hsrc, hm0, hmg, hmd]
            exact absurd hp (hparse i')
    · by_cases h3 : i.Source ≠ "" ∧ i.Map = "" ∧ i.Store = ""
      · have hparse : manifest.Input.parse i
            = .ok { i with Name := "source:" ++ i.Source } := by
          simp only [manifest.Input.parse, if_neg h1, if_neg h2, if_pos h3]
        rw [hparse] at hp
        simp only [Except.ok.injEq] at hp
        subst hp
        constructor
        · intro hs
          exact absurd h3.2.2 (by simpa using hs)
        · intro hmapne
          exact absurd h3.2.1 (by simpa using hmapne)
      · have hparse : ∀ j, manifest.Input.parse i ≠ .ok j := by
          intro j
          simp [manifest.Input.parse, h1, h2, h3]
        exact absurd hp (hparse i')

/-- Witness for C9: the concrete parsed store input converts to an
`InputStore` naming the declaring module with mode `UNSET`. -/
theorem C9_witness :
    manifest.inputToProto moduleEx inputStoreExParsed
      = .ok (.store ⟨moduleEx.Name, manifest.InputStoreMode.UNSET⟩) :=
  (C9_proto_conversion moduleEx inputStoreEx inputStoreExParsed rfl).1
    (by decide)

theorem colon_split :
    ∀ (p a : List Char), ':' ∉ p → ':' ∉ a → ∀ (v b : List Char),
      p ++ ':' :: v = a ++ ':' :: b → p = a ∧ v = b := by
  intro p
  induction p with
  | nil =>
    intro a _ ha v b h
    cases a with
    | nil => simpa using h
    | cons c cs =>
      simp only [List.nil_append, List.cons_append, List.cons.injEq] at h
      exact absurd (List.mem_cons_self c cs) (by rw [h.1] at ha; exact fun hm => ha hm)
  | cons c cs ih =>
    intro a hp ha v b h
    cases a with
    | nil =>
      simp only [List.cons_append, List.nil_append, List.cons.injEq] at h
      exact absurd (List.mem_cons_self c cs) (by rw [← h.1] at hp; exact fun hm => hp hm)
    | cons d ds =>
      simp only [List.cons_append, List.cons.injEq] at h
      obtain ⟨rfl, h2⟩ := h
      have hp' : ':' ∉ cs := fun hm => hp (List.mem_cons_of_mem c hm)
      have ha' : ':' ∉ ds := fun hm => ha (List.mem_cons_of_mem c hm)
      obtain ⟨rfl, rfl⟩ := ih ds hp' ha' v b h2
      exact ⟨rfl, rfl⟩

theorem concat_colon_inj (p v a b : String) (ha : ':' ∉ a.data)
    (hb : ':' ∉ b.data) :
    p ++ ":" ++ v = a ++ ":" ++ b ↔ (p = a ∧ v = b) := by
  constructor
  · intro h
    have hd : p.data ++ ':' :: v.data = a.data ++ ':' :: b.data := by
      have := congrArg String.data h
      simpa [String.data_append] using this
    have hcount := congrArg (List.count ':') hd
    simp only [List.count_append, List.count_cons_self,
      List.count_eq_zero.mpr ha, List.count_eq_zero.mpr hb] at hcount
    have hp : ':' ∉ p.data := List.count_eq_zero.mp (by omega)
    have hv : ':' ∉ v.data := List.count_eq_zero.mp (by omega)
    obtain ⟨h1, h2⟩ := colon_split p.data a.data hp ha v.data b.data hd
    exact ⟨String.ext h1, String.ext h2⟩
  · rintro ⟨rfl, rfl⟩
    rfl

theorem combo_case (p v a b ab : String) (hab : a ++ ":" ++ b = ab)
    (ha : ':' ∉ a.data) (hb : ':' ∉ b.data) :
    (p ++ ":" ++ v = ab) ↔ (p = a ∧ v = b) :=
  hab ▸ concat_colon_inj p v a b ha hb

theorem any_comb_iff (p v : String) :
    (manifest.combinations.any fun comb => p ++ ":" ++ v == comb) = true
      ↔ (p, v) ∈ legalCombinations := by
  simp only [manifest.combinations, legalCombinations, List.any_cons,
    List.any_nil, Bool.or_eq_true, beq_iff_eq, List.mem_cons,
    List.not_mem_nil, Bool.false_eq_true, or_false, Prod.mk.injEq]
  rw [combo_case p v "max" "bigint" "max:bigint" rfl (by decide) (by decide),
    combo_case p v "max" "int64" "max:int64" rfl (by decide) (by decide),
    combo_case p v "max" "bigfloat" "max:bigfloat" rfl (by decide) (by decide),
    combo_case p v "max" "float64" "max:float64" rfl (by decide) (by decide),
    combo_case p v "min" "bigint" "min:bigint" rfl (by decide) (by decide),
    combo_case p v "min" "int64" "min:int64" rfl (by decide) (by decide),
    combo_case p v "min" "bigfloat" "min:bigfloat" rfl (by decide) (by decide),
    combo_case p v "min" "float64" "min:float64" rfl (by decide) (by decide),
    combo_case p v "sum" "bigint" "sum:bigint" rfl (by decide) (by decide),
    combo_case p v "sum" "int64" "sum:int64" rfl (by decide) (by decide),
    combo_case p v "sum" "bigfloat" "sum:bigfloat" rfl (by decide) (by decide),
    combo_case p v "sum" "float64" "sum:float64" rfl (by decide) (by decide),
    combo_case p v "replace" "bytes" "replace:bytes" rfl (by decide) (by decide),
    combo_case p v "replace" "string" "replace:string" rfl (by decide) (by decide),
    combo_case p v "replace" "proto" "replace:proto" rfl (by decide) (by decide),
    combo_case p v "ignore" "bytes" "ignore:bytes" rfl (by decide) (by decide),
    combo_case p v "ignore" "string" "ignore:string" rfl (by decide) (by decide),
    combo_case p v "ignore" "proto" "ignore:proto" rfl (by decide) (by decide)]

theorem legal_components_ne :
    ∀ x ∈ legalCombinations, x.1 ≠ "" ∧ x.2 ≠ "" := by decide

/-- C5: `validateStoreBuilder` succeeds exactly on the legal
(update policy, value type) pairs — `max`/`min`/`sum` with
`bigint`/`int64`/`bigfloat`/`float64`, and `replace`/`ignore` with
`bytes`/`string`/`proto`; an empty update policy or value type yields a
missing-field error distinct from the invalid-combination error; in
particular `("max","bigint")` validates, `("max","string")` is an invalid
combination, and `("","int64")` is a missing field. -/
theorem C5_validate_policy (m : manifest.Module) :
    (manifest.validateStoreBuilder m = none
      ↔ (m.UpdatePolicy, m.ValueType) ∈ legalCombinations)
    ∧ (m.UpdatePolicy = "" →
        manifest.validateStoreBuilder m
          = some manifest.StoreValidationError.missingUpdatePolicy)
    ∧ (m.UpdatePolicy ≠ "" → m.ValueType = "" →
        manifest.validateStoreBuilder m
          = some manifest.StoreValidationError.missingValueType)
    ∧ manifest.StoreValidationError.missingUpdatePolicy
        ≠ manifest.StoreValidationError.invalidCombination
    ∧ manifest.StoreValidationError.missingValueType
        ≠ manifest.StoreValidationError.invalidCombination
    ∧ manifest.validateStoreBuilder storeModMaxBigint = none
    ∧ manifest.validateStoreBuilder storeModMaxString
        = some manifest.StoreValidationError.invalidCombination
    ∧ manifest.validateStoreBuilder storeModEmptyInt64
        = some manifest.StoreValidationError.missingUpdatePolicy := by
  refine ⟨?_, ?_, ?_, by decide, by decide, by decide, by decide, by decide⟩
  · by_cases hp : m.UpdatePolicy = ""
    · simp only [manifest.validateStoreBuilder, if_pos hp]
      constructor
      · intro h
        simp at h
      · intro hmem
        exact absurd hp (legal_components_ne _ hmem).1
    · by_cases hv : m.ValueType = ""
      · simp only [manifest.validateStoreBuilder, if_neg hp, if_pos hv]
        constructor
        · intro h
          simp at h
        · intro hmem
          exact absurd hv (legal_components_ne _ hmem).2
      · simp only [manifest.validateStoreBuilder, if_neg hp, if_neg hv]
        by_cases hA : (manifest.combinations.any
            fun comb => m.UpdatePolicy ++ ":" ++ m.ValueType == comb) = true
        · rw [if_pos hA]
          rw [any_comb_iff] at hA
          simp [hA]
        · rw [if_neg hA]
          rw [any_comb_iff] at hA
          constructor
          · intro h
            simp at h
          · intro hmem
            exact absurd hmem hA
  · intro hp
    simp [manifest.validateStoreBuilder, hp]
  · intro hp hv
    simp [manifest.validateStoreBuilder, hp, hv]

/-- Witness for C5 at the empty-policy example module. -/
theorem C5_witness :
    manifest.validateStoreBuilder storeModEmptyInt64
      = some manifest.StoreValidationError.missingUpdatePolicy :=
  (C5_validate_policy storeModEmptyInt64).2.1 rfl

namespace manifest

theorem parentNames_perm {a b : Module} (h : InputsPermuted a b) :
    (parentNames a).Perm (parentNames b) :=
  h.2.2.2.2.2.2.filterMap _

theorem lookup_rel :
    ∀ {l₁ l₂ : List Module}, List.Forall₂ InputsPermuted l₁ l₂ → ∀ n,
      (lookupModule l₁ n = none ∧ lookupModule l₂ n = none)
      ∨ ∃ a b, lookupModule l₁ n = some a ∧ lookupModule l₂ n = some b
          ∧ InputsPermuted a b := by
  intro l₁ l₂ h
  induction h with
  | nil => intro n; exact Or.inl ⟨rfl, rfl⟩
  | @cons a b t₁ t₂ hab ht ih =>
    intro n
    by_cases hn : (a.Name == n) = true
    · refine Or.inr ⟨a, b, ?_, ?_, hab⟩
      · exact List.find?_cons_of_pos _ hn
      · exact List.find?_cons_of_pos _ (by rw [← hab.1]; exact hn)
    · have hn' : (b.Name == n) = false := by
        rw [← hab.1]
        exact Bool.not_eq_true _ ▸ (by simpa using hn)
      rcases ih n with ⟨h1, h2⟩ | ⟨x, y, h1, h2, hxy⟩
      · refine Or.inl ⟨?_, ?_⟩
        · rw [lookupModule, List.find?_cons_of_neg _ (by simpa using hn)]; exact h1
        · rw [lookupModule, List.find?_cons_of_neg _ (by simp [hn'])]; exact h2
      · refine Or.inr ⟨x, y, ?_, ?_, hxy⟩
        · rw [lookupModule, List.find?_cons_of_neg _ (by simpa using hn)]; exact h1
        · rw [lookupModule, List.find?_cons_of_neg _ (by simp [hn'])]; exact h2

theorem forall2_filter {α : Type} {R : α → α → Prop} (p₁ p₂ : α → Bool)
    (hp : ∀ a b, R a b → p₁ a = p₂ b) :
    ∀ {l₁ l₂ : List α}, List.Forall₂ R l₁ l₂ →
      List.Forall₂ R (l₁.filter p₁) (l₂.filter p₂) := by
  intro l₁ l₂ h
  induction h with
  | nil => exact List.Forall₂.nil
  | @cons a b t₁ t₂ hab ht ih =>
    simp only [List.filter_cons]
    rw [hp a b hab]
    cases hb : p₂ b with
    | false => exact ih
    | true => exact List.Forall₂.cons hab ih

theorem parentsOf_rel (g₁ g₂ : ModuleGraph) (hg : GraphPermuted g₁ g₂)
    (n : String) :
    List.Forall₂ InputsPermuted (parentsOf g₁ n) (parentsOf g₂ n) := by
  rcases lookup_rel hg n with ⟨h1, h2⟩ | ⟨a, b, h1, h2, hab⟩
  · simp only [parentsOf, h1, h2]
    exact List.Forall₂.nil
  · simp only [parentsOf, h1, h2]
    refine forall2_filter _ _ ?_ hg
    intro x y hxy
    rw [hxy.1]
    refine decide_eq_decide.mpr ?_
    exact (parentNames_perm hab).mem_iff

theorem forall2_flatMap {α : Type} {R : α → α → Prop} (f₁ f₂ : α → List α)
    (hf : ∀ a b, R a b → List.Forall₂ R (f₁ a) (f₂ b)) :
    ∀ {l₁ l₂ : List α}, List.Forall₂ R l₁ l₂ →
      List.Forall₂ R (l₁.flatMap f₁) (l₂.flatMap f₂) := by
  intro l₁ l₂ h
  induction h with
  | nil => exact List.Forall₂.nil
  | @cons a b t₁ t₂ hab ht ih =>
    simp only [List.flatMap_cons]
    exact List.rel_append (hf a b hab) ih

theorem ancestorsAux_rel (g₁ g₂ : ModuleGraph) (hg : GraphPermuted g₁ g₂) :
    ∀ (fuel : Nat) (n : String),
      List.Forall₂ InputsPermuted (ancestorsAux g₁ fuel n)
        (ancestorsAux g₂ fuel n) := by
  intro fuel
  induction fuel with
  | zero => intro n; exact List.Forall₂.nil
  | succ f ih =>
    intro n
    simp only [ancestorsAux]
    refine forall2_flatMap _ _ ?_ (parentsOf_rel g₁ g₂ hg n)
    intro a b hab
    refine List.Forall₂.cons hab ?_
    rw [hab.1]
    exact ih b.Name

theorem sortStrings_perm_eq {l₁ l₂ : List String} (h : l₁.Perm l₂) :
    sortStrings l₁ = sortStrings l₂ := by
  refine eq_of_perm_of_pairwise (fun a b => strLt b a = false) _ _
    (((sortBy_perm _ l₁).trans h).trans (sortBy_perm _ l₂).symm) ?_ ?_ ?_
  · exact sortBy_pairwise _ _ (fun a b hab => strLt_asymm a b hab)
      (fun a b hab => hab) (fun a b c h1 h2 => strLt_le_trans c b a h2 h1) l₁
  · exact sortBy_pairwise _ _ (fun a b hab => strLt_asymm a b hab)
      (fun a b hab => hab) (fun a b c h1 h2 => strLt_le_trans c b a h2 h1) l₂
  · intro a _ b _ h1 h2
    exact strLt_antisymm a b h2 h1

theorem sigBase_eq {a b : Module} (h : InputsPermuted a b) :
    sigBase a = sigBase b := by
  rw [sigBase_spec, sigBase_spec, h.2.1, h.2.2.1,
    sortStrings_perm_eq (h.2.2.2.2.2.2.map Input.Name)]

theorem forall2_map_eq {α β : Type} {R : α → α → Prop} {f₁ f₂ : α → β} :
    ∀ {l₁ l₂ : List α}, List.Forall₂ R l₁ l₂ → (∀ a b, R a b → f₁ a = f₂ b) →
      l₁.map f₁ = l₂.map f₂ := by
  intro l₁ l₂ h hf
  induction h with
  | nil => rfl
  | @cons a b t₁ t₂ hab ht ih => simp only [List.map_cons, hf a b hab, ih]

theorem signatureW_rel (g₁ g₂ : ModuleGraph) (hg : GraphPermuted g₁ g₂) :
    ∀ (fuel : Nat) (m₁ m₂ : Module), InputsPermuted m₁ m₂ →
      signatureW g₁ fuel m₁ = signatureW g₂ fuel m₂ := by
  intro fuel
  induction fuel with
  | zero => intro m₁ m₂ _; rfl
  | succ f ih =>
    intro m₁ m₂ hm
    simp only [signatureW]
    rw [sigBase_eq hm]
    have hanc : List.Forall₂ InputsPermuted (g₁.AncestorsOf m₁.Name)
        (g₂.AncestorsOf m₂.Name) := by
      rw [hm.1]
      show List.Forall₂ _ (ancestorsAux g₁ g₁.modules.length m₂.Name)
        (ancestorsAux g₂ g₂.modules.length m₂.Name)
      rw [List.Forall₂.length_eq hg]
      exact ancestorsAux_rel g₁ g₂ hg _ m₂.Name
    rw [forall2_map_eq hanc (fun a b hab => ih a b hab)]

end manifest

/-- C1: on a graph whose dependency chains from the module are no longer
than the module count (every DAG, the only graphs the loader admits),
`Module.Signature` is the 20-byte SHA-1 digest of the concatenation of the
module's kind, raw code bytes, entrypoint, its inputs' canonical names in
lexicographic order, and the recursively computed signature of each
ancestor returned by `AncestorsOf`, in that order. -/
theorem C1_signature_algorithm (m : manifest.Module) (g : manifest.ModuleGraph)
    (h : manifest.depthOk g g.modules.length m.Name = true) :
    m.Signature g
      = sha1 (strBytes m.Kind ++ m.Code.Content ++ strBytes m.Code.Entrypoint
          ++ ((manifest.sortStrings (m.Inputs.map manifest.Input.Name)).map
            strBytes).flatten
          ++ ((g.AncestorsOf m.Name).map fun a => a.Signature g).flatten)
    ∧ (m.Signature g).length = 20 := by
  constructor
  · have hanc : (g.AncestorsOf m.Name).map (manifest.signatureW g g.modules.length)
        = (g.AncestorsOf m.Name).map fun a => a.Signature g := by
      apply List.map_congr_left
      intro a ha
      obtain ⟨d', hd', hok⟩ :=
        manifest.ancestorsAux_depth g g.modules.length m.Name g.modules.length a h ha
      exact manifest.signatureW_stable g d' a hok g.modules.length
        (g.modules.length + 1) (by omega) (by omega)
    show manifest.signatureW g (g.modules.length + 1) m = _
    rw [manifest.signatureW, hanc, manifest.sigBase_spec]
  · exact sha1_length _

/-- Witness for C1 at the two-module witness graph. -/
theorem C1_witness :
    manifest.depthOk wGraph wGraph.modules.length wModA.Name = true
    ∧ (wModA.Signature wGraph
        = sha1 (strBytes wModA.Kind ++ wModA.Code.Content
            ++ strBytes wModA.Code.Entrypoint
            ++ ((manifest.sortStrings (wModA.Inputs.map manifest.Input.Name)).map
              strBytes).flatten
            ++ ((wGraph.AncestorsOf wModA.Name).map
              fun a => a.Signature wGraph).flatten)
      ∧ (wModA.Signature wGraph).length = 20) :=
  ⟨by decide, C1_signature_algorithm wModA wGraph (by decide)⟩

/-- C2 counterexample: two modules whose definitions differ bit-for-bit in
code bytes and entrypoint receive identical signatures, because the hash
preimage concatenates the fields with no separators — `"" ++ "map"` and
`"map" ++ ""` produce the same bytes.  The "only if" direction of the claim
is false. -/
theorem C2_counterexample :
    mapEmptyCode.Signature noModulesGraph = mapInlineCode.Signature noModulesGraph
    ∧ mapEmptyCode ≠ mapInlineCode
    ∧ mapEmptyCode.Code.Content ≠ mapInlineCode.Code.Content := by
  refine ⟨?_, by decide, by decide⟩
  show manifest.signatureW noModulesGraph 1 mapEmptyCode
    = manifest.signatureW noModulesGraph 1 mapInlineCode
  simp only [manifest.signatureW]
  congr 1

/-- C2 (amended): equality of a module's definition together with the
ancestor lists its graph assigns determines the signature — identical
modules over structurally identical graphs hash identically; by
`C2_counterexample` the converse implication of the claim does not hold. -/
theorem C2_signature_cache_contract (g₁ g₂ : manifest.ModuleGraph)
    (m : manifest.Module) (hlen : g₁.modules.length = g₂.modules.length)
    (hanc : ∀ n, g₁.AncestorsOf n = g₂.AncestorsOf n) :
    m.Signature g₁ = m.Signature g₂ := by
  have key : ∀ (fuel : Nat) (m' : manifest.Module),
      manifest.signatureW g₁ fuel m' = manifest.signatureW g₂ fuel m' := by
    intro fuel
    induction fuel with
    | zero => intro m'; rfl
    | succ f ih =>
      intro m'
      simp only [manifest.signatureW]
      rw [hanc m'.Name]
      have : (g₂.AncestorsOf m'.Name).map (manifest.signatureW g₁ f)
          = (g₂.AncestorsOf m'.Name).map (manifest.signatureW g₂ f) :=
        List.map_congr_left fun a _ => ih a
      rw [this]
  show manifest.signatureW g₁ (g₁.modules.length + 1) m
    = manifest.signatureW g₂ (g₂.modules.length + 1) m
  rw [hlen]
  exact key _ m

/-- Witness for the amended C2. -/
theorem C2_witness :
    wModA.Signature wGraph = wModA.Signature wGraph :=
  C2_signature_cache_contract wGraph wGraph wModA rfl (fun _ => rfl)

/-- C7: permuting the declaration order of a module's inputs — in the
module and in the graph built over the manifest — leaves its signature
unchanged: the inputs are sorted by canonical name before hashing, and
ancestor order comes from module declaration order, not input order. -/
theorem C7_input_order_irrelevant (g₁ g₂ : manifest.ModuleGraph)
    (m₁ m₂ : manifest.Module) (hg : manifest.GraphPermuted g₁ g₂)
    (hm : manifest.InputsPermuted m₁ m₂) :
    m₁.Signature g₁ = m₂.Signature g₂ := by
  show manifest.signatureW g₁ (g₁.modules.length + 1) m₁
    = manifest.signatureW g₂ (g₂.modules.length + 1) m₂
  rw [List.Forall₂.length_eq hg]
  exact manifest.signatureW_rel g₁ g₂ hg _ m₁ m₂ hm

/-- Witness for C7: swapping the two inputs of the witness module. -/
theorem C7_witness :
    wModA.Signature wGraph = wModAswap.Signature wGraphSwap :=
  C7_input_order_irrelevant wGraph wGraphSwap wModA wModAswap
    (List.Forall₂.cons ⟨rfl, rfl, rfl, rfl, rfl, rfl, by decide⟩
      (List.Forall₂.cons ⟨rfl, rfl, rfl, rfl, rfl, rfl, List.Perm.refl _⟩
        List.Forall₂.nil))
    ⟨rfl, rfl, rfl, rfl, rfl, rfl, by decide⟩
